import Mathlib

/-!
Verification of the CPU-Sim core (execution engine + cache simulator).

This file gives a shallow embedding, in Lean 4, of the Rust sources
`src/cpu.rs`, `src/memory.rs` and `src/cache.rs` of the CPU-Sim repository,
and proves (or refutes) the frozen claims about them.

Modelling conventions:
* `u8` / `u16` / `u32` / `u64` values are represented by `Nat`; wherever the
  Rust code wraps (`wrapping_add`, `wrapping_sub`, `as u8` casts) the model
  applies an explicit `% 2^w`.  Plain `+= 1` counters (`cycle`,
  `access_counter`, `hits`, `misses`) use unchecked Rust addition, whose
  overflow is a Rust program error; they are modelled as exact `Nat`
  increments.
* `HashMap` fields are modelled as functions into `Option`.
* Fallible operations return `Option`: a Rust panic (division by zero in
  `get_tag_and_set` when `num_sets as u8 == 0`, or the out-of-bounds index
  `set.blocks[lru_idx]` on an empty-but-full set) is modelled as `none`.
* `println!` tracing has no algorithmic content and is dropped.
-/

namespace CPUSim

/-- 2^32, the modulus of `u32` arithmetic. -/
def U32 : Nat := 4294967296

/-- `u64::MAX`, the initial value of the LRU scan in `Cache::write`. -/
def U64MAX : Nat := 18446744073709551615

/-- `memory.rs`: kind tag of an occupied address. -/
inductive WordKind where
  | Instruction : WordKind
  | Data : WordKind
deriving DecidableEq, Repr

/-- `memory.rs`: `Memory { data: HashMap<u8,u32>, kinds: HashMap<u8,WordKind> }`,
each map modelled as a function into `Option`. -/
structure Memory where
  data : Nat → Option Nat
  kinds : Nat → Option WordKind

/-- `Memory::new()`. -/
def Memory.new : Memory := ⟨fun _ => none, fun _ => none⟩

/-- `HashMap::insert` on the `data` map. -/
def Memory.insertData (m : Memory) (addr v : Nat) : Memory :=
  { m with data := fun a => if a = addr then some v else m.data a }

/-- `cache.rs`: one cache block. -/
structure CacheBlock where
  tag : Nat
  data : Nat
  valid : Bool
  last_used : Nat
deriving DecidableEq, Repr

/-- Fallback block used with `List.getD` (never an actual cache content). -/
def defBlock : CacheBlock := ⟨0, 0, false, 0⟩

/-- `cache.rs`: one cache set (a growable vector of blocks plus its capacity). -/
structure CacheSet where
  blocks : List CacheBlock
  capacity : Nat
deriving DecidableEq, Repr

/-- `cache.rs`: the whole cache.  `sets` is the `HashMap<u8, CacheSet>`. -/
structure Cache where
  sets : Nat → Option CacheSet
  num_sets : Nat
  blocks_per_set : Nat
  access_counter : Nat
  hits : Nat
  misses : Nat

/-- `Cache::new(num_sets, blocks_per_set)`: inserts an empty set under key
`i as u8` for every `i in 0..num_sets`; the inserted keys are exactly the
naturals below `min num_sets 256`, every set empty with capacity
`blocks_per_set`. -/
def Cache.new (num_sets blocks_per_set : Nat) : Cache :=
  { sets := fun s =>
      if s < min num_sets 256 then some ⟨[], blocks_per_set⟩ else none
    num_sets := num_sets
    blocks_per_set := blocks_per_set
    access_counter := 0
    hits := 0
    misses := 0 }

/-- `Cache::get_tag_and_set`: `(addr / (num_sets as u8), addr % (num_sets as u8))`.
The `as u8` cast truncates `num_sets` to `num_sets % 256`; if that is `0`,
the Rust `%` and `/` panic — modelled as `none`. -/
def Cache.get_tag_and_set (c : Cache) (addr : Nat) : Option (Nat × Nat) :=
  let n := c.num_sets % 256
  if n = 0 then none else some (addr / n, addr % n)

/-- The loop condition `block.valid && block.tag == tag` used by both
`Cache::read` and `Cache::write`. -/
def blockMatch (tag : Nat) (b : CacheBlock) : Bool :=
  b.valid && b.tag == tag

/-- The scan loop of `Cache::read`: find the first valid block with the given
tag, refresh its `last_used`, and return its data together with the updated
block list; `none` if no block matches. -/
def readScan (tag ac : Nat) : List CacheBlock → Option (Nat × List CacheBlock)
  | [] => none
  | b :: rest =>
    if blockMatch tag b then
      some (b.data, { b with last_used := ac } :: rest)
    else
      match readScan tag ac rest with
      | some (d, rest') => some (d, b :: rest')
      | none => none

/-- The first scan loop of `Cache::write`: update the data and `last_used`
of the first valid block with the given tag; `none` if no block matches. -/
def writeScan (tag d ac : Nat) : List CacheBlock → Option (List CacheBlock)
  | [] => none
  | b :: rest =>
    if blockMatch tag b then
      some ({ b with data := d, last_used := ac } :: rest)
    else
      match writeScan tag d ac rest with
      | some rest' => some (b :: rest')
      | none => none

/-- The LRU selection loop of `Cache::write`: fold over the enumerated blocks
carrying `(lru_idx, min_last_used)`, updating on strict `<`. -/
def lruFold : List CacheBlock → Nat → Nat → Nat → Nat × Nat
  | [], _, jb, mb => (jb, mb)
  | b :: rest, idx, jb, mb =>
    if b.last_used < mb then lruFold rest (idx + 1) idx b.last_used
    else lruFold rest (idx + 1) jb mb

/-- `Cache::read(addr) -> (u32, bool)`, returning the result together with the
updated cache; `none` models the panic of `get_tag_and_set`. -/
def Cache.read (c : Cache) (addr : Nat) : Option ((Nat × Bool) × Cache) :=
  let ac := c.access_counter + 1
  match c.get_tag_and_set addr with
  | none => none
  | some (tag, set_idx) =>
    match c.sets set_idx with
    | some s =>
      match readScan tag ac s.blocks with
      | some (d, blocks') =>
        some ((d, true),
          { c with
            access_counter := ac
            hits := c.hits + 1
            sets := fun i =>
              if i = set_idx then some { s with blocks := blocks' }
              else c.sets i })
      | none =>
        some ((0, false), { c with access_counter := ac, misses := c.misses + 1 })
    | none =>
      some ((0, false), { c with access_counter := ac, misses := c.misses + 1 })

/-- `Cache::write(addr, data)`; `none` models the panics (`get_tag_and_set`
division by zero, or indexing `set.blocks[lru_idx]` on an empty vector, which
Rust reaches exactly when a full set has no blocks, i.e. capacity 0). -/
def Cache.write (c : Cache) (addr d : Nat) : Option Cache :=
  let ac := c.access_counter + 1
  match c.get_tag_and_set addr with
  | none => none
  | some (tag, set_idx) =>
    let s := (c.sets set_idx).getD ⟨[], c.blocks_per_set⟩
    let blocks? : Option (List CacheBlock) :=
      match writeScan tag d ac s.blocks with
      | some bs => some bs
      | none =>
        if s.blocks.length < s.capacity then
          some (s.blocks ++ [⟨tag, d, true, ac⟩])
        else if s.blocks.isEmpty then
          none
        else
          some (s.blocks.set (lruFold s.blocks 0 0 U64MAX).1 ⟨tag, d, true, ac⟩)
    match blocks? with
    | none => none
    | some blocks' =>
      some { c with
        access_counter := ac
        sets := fun i =>
          if i = set_idx then some { s with blocks := blocks' }
          else c.sets i }

/-- `Cache::get_hit_rate`: `hits / (hits + misses)` for a positive total, else
`0`.  The Rust `f32` quotient is modelled as the exact rational. -/
def Cache.get_hit_rate (c : Cache) : ℚ :=
  let total := c.hits + c.misses
  if total > 0 then (c.hits : ℚ) / (total : ℚ) else 0

/-- `cpu.rs`: the CPU state. -/
structure CPU where
  registers : Nat → Nat
  pc : Nat
  cycle : Nat
  halted : Bool

/-- `CPU::new()`. -/
def CPU.new : CPU := ⟨fun _ => 0, 0, 0, false⟩

/-- `CPU::opcode`: `(instruction >> 26) & 0x3F`. -/
def CPU.opcode (instruction : Nat) : Nat := (instruction >>> 26) &&& 0x3F

/-- `CPU::rs`: `(instruction >> 21) & 0x1F`. -/
def CPU.rs (instruction : Nat) : Nat := (instruction >>> 21) &&& 0x1F

/-- `CPU::rt`: `(instruction >> 16) & 0x1F`. -/
def CPU.rt (instruction : Nat) : Nat := (instruction >>> 16) &&& 0x1F

/-- `CPU::rd`: `(instruction >> 11) & 0x1F`. -/
def CPU.rd (instruction : Nat) : Nat := (instruction >>> 11) &&& 0x1F

/-- `CPU::shamt`: `(instruction >> 6) & 0x1F`. -/
def CPU.shamt (instruction : Nat) : Nat := (instruction >>> 6) &&& 0x1F

/-- `CPU::funct`: `instruction & 0x3F`. -/
def CPU.funct (instruction : Nat) : Nat := instruction &&& 0x3F

/-- `CPU::imm`: `(instruction & 0xFFFF) as u16`. -/
def CPU.imm (instruction : Nat) : Nat := instruction &&& 0xFFFF

/-- `CPU::imm(..) as i16`: the 16-bit immediate reinterpreted as signed. -/
def immS (instruction : Nat) : Int :=
  let x := CPU.imm instruction
  if x < 32768 then (x : Int) else (x : Int) - 65536

/-- `imm as u32` for `imm : i16`: sign-extend to 32 bits and reinterpret as
unsigned, i.e. the signed value modulo 2^32. -/
def immU32 (instruction : Nat) : Nat := ((immS instruction) % (4294967296 : Int)).toNat

/-- A register value (`u32`) reinterpreted `as i32` (for `SLT`). -/
def asI32 (x : Nat) : Int :=
  if x % U32 < 2147483648 then ((x % U32 : Nat) : Int)
  else ((x % U32 : Nat) : Int) - (U32 : Int)

/-- `self.registers[i] = v` as a function update. -/
def setReg (r : Nat → Nat) (i v : Nat) : Nat → Nat :=
  fun j => if j = i then v else r j

/-- The body of the `match opcode` dispatch in `CPU::step` (everything between
decode and the cycle-counter update); `none` propagates cache panics. -/
def CPU.exec (cpu : CPU) (memory : Memory) (cache : Cache) (instruction : Nat) :
    Option (CPU × Memory × Cache) :=
  let op := CPU.opcode instruction
  let regs := cpu.registers
  let pc := cpu.pc
  if op = 0x00 then
    let f := CPU.funct instruction
    if f = 0x20 then
      -- ADD: rd = rs + rt (wrapping)
      some ({ cpu with
        registers := setReg regs (CPU.rd instruction)
          ((regs (CPU.rs instruction) + regs (CPU.rt instruction)) % U32)
        pc := (pc + 1) % 256 }, memory, cache)
    else if f = 0x22 then
      -- SUB: rd = rs - rt (wrapping)
      some ({ cpu with
        registers := setReg regs (CPU.rd instruction)
          ((regs (CPU.rs instruction) % U32 + U32 - regs (CPU.rt instruction) % U32) % U32)
        pc := (pc + 1) % 256 }, memory, cache)
    else if f = 0x2A then
      -- SLT: rd = (rs <s rt) ? 1 : 0
      some ({ cpu with
        registers := setReg regs (CPU.rd instruction)
          (if asI32 (regs (CPU.rs instruction)) < asI32 (regs (CPU.rt instruction))
           then 1 else 0)
        pc := (pc + 1) % 256 }, memory, cache)
    else
      -- unsupported R-type
      some ({ cpu with pc := (pc + 1) % 256 }, memory, cache)
  else if op = 0x08 then
    -- ADDI: rt = rs + (imm as u32) (wrapping)
    some ({ cpu with
      registers := setReg regs (CPU.rt instruction)
        ((regs (CPU.rs instruction) + immU32 instruction) % U32)
      pc := (pc + 1) % 256 }, memory, cache)
  else if op = 0x04 then
    -- BEQ
    if immS instruction < 0 then
      if regs (CPU.rs instruction) = regs (CPU.rt instruction) then
        -- (pc as i16 + 1 + imm) as u8
        some ({ cpu with
          pc := ((((pc : Int) + 1 + immS instruction) % 256).toNat) },
          memory, cache)
      else
        some ({ cpu with pc := (pc + 1) % 256 }, memory, cache)
    else
      if regs (CPU.rs instruction) = regs (CPU.rt instruction) then
        -- pc.wrapping_add(1).wrapping_add(imm as u8)
        some ({ cpu with
          pc := ((pc + 1) % 256 + CPU.imm instruction % 256) % 256 },
          memory, cache)
      else
        some ({ cpu with pc := (pc + 1) % 256 }, memory, cache)
  else if op = 0x23 then
    -- LW: rt = MEM[rs + offset], through the cache
    -- (regs[rs].wrapping_add(imm as u32) & 0xFF) as u8
    let addr := (regs (CPU.rs instruction) + immU32 instruction) % U32 % 256
    match cache.read addr with
    | none => none
    | some ((d, cache_hit), cache1) =>
      if cache_hit then
        some ({ cpu with
          registers := setReg regs (CPU.rt instruction) d
          pc := (pc + 1) % 256 }, memory, cache1)
      else
        match memory.data addr with
        | some v =>
          match cache1.write addr v with
          | none => none
          | some cache2 =>
            some ({ cpu with
              registers := setReg regs (CPU.rt instruction) v
              pc := (pc + 1) % 256 }, memory, cache2)
        | none =>
          match cache1.write addr 0 with
          | none => none
          | some cache2 =>
            some ({ cpu with
              registers := setReg regs (CPU.rt instruction) 0
              pc := (pc + 1) % 256 }, memory.insertData addr 0, cache2)
  else if op = 0x2B then
    -- SW: MEM[rs + offset] = rt, write-through the cache
    let addr := (regs (CPU.rs instruction) + immU32 instruction) % U32 % 256
    let d := regs (CPU.rt instruction)
    match cache.write addr d with
    | none => none
    | some cache1 =>
      some ({ cpu with pc := (pc + 1) % 256 }, memory.insertData addr d, cache1)
  else
    -- unsupported opcode
    some ({ cpu with pc := (pc + 1) % 256 }, memory, cache)

/-- The tail of `CPU::step`: increment the cycle counter, then halt if the
backing memory has no entry at the new PC (`self.halted = true` only in that
case, otherwise the flag is left as is). -/
def finishStep (t : CPU × Memory × Cache) : CPU × Memory × Cache :=
  let cpu1 := { t.1 with cycle := t.1.cycle + 1 }
  ({ cpu1 with
      halted := if t.2.1.data cpu1.pc = none then true else cpu1.halted },
    t.2.1, t.2.2)

/-- `CPU::step(memory, cache)`: no-op if halted; otherwise fetch (defaulting
to instruction word 0), dispatch, bump the cycle counter and re-check the
halting condition.  `none` models a cache panic propagating out. -/
def CPU.step (cpu : CPU) (memory : Memory) (cache : Cache) :
    Option (CPU × Memory × Cache) :=
  if cpu.halted then some (cpu, memory, cache)
  else
    (CPU.exec cpu memory cache ((memory.data cpu.pc).getD 0)).map finishStep

/-! ### Specification-side definitions

These restate notions in the words of the spec (independent of the loop
structure of the code) so the claim theorems compare code against spec. -/

/-- Spec-side effective address of LW/SW:
`(reg[rs] + sign_extend16(imm)) mod 256`. -/
def effAddr (cpu : CPU) (instruction : Nat) : Nat :=
  ((((cpu.registers (CPU.rs instruction) : Int) + immS instruction) % 256).toNat)

/-- Spec-side: index of the first valid block carrying a given tag. -/
def firstMatch (tag : Nat) : List CacheBlock → Option Nat
  | [] => none
  | b :: rest =>
    if blockMatch tag b then some 0
    else (firstMatch tag rest).map (· + 1)

/-- `last_used` of the block at a position (fallback `defBlock`). -/
def lastUsedAt (l : List CacheBlock) (k : Nat) : Nat :=
  (l.getD k defBlock).last_used

/-- Spec-side: `j` is the position of the smallest `last_used` in `l`, ties
broken to the lowest index (every earlier block is strictly larger). -/
def IsFirstMin (l : List CacheBlock) (j : Nat) : Prop :=
  j < l.length ∧
  (∀ k, k < l.length → lastUsedAt l j ≤ lastUsedAt l k) ∧
  (∀ k, k < j → lastUsedAt l j < lastUsedAt l k)

/-- Structural well-formedness of a cache, as guaranteed by `Cache::new` with
a usable geometry: the truncated set count `num_sets as u8` is nonzero,
`blocks_per_set` is positive, and every reachable set (index < 256) has a
positive capacity.  Decidable so witnesses can check it by evaluation. -/
def Cache.wf (c : Cache) : Bool :=
  decide (c.num_sets % 256 ≠ 0) && decide (0 < c.blocks_per_set) &&
  (List.range 256).all fun i =>
    match c.sets i with
    | some s => decide (0 < s.capacity)
    | none => true

/-- One cache operation, for reasoning about call sequences. -/
inductive CacheOp where
  | rd (addr : Nat) : CacheOp
  | wr (addr d : Nat) : CacheOp
  | rate : CacheOp
deriving DecidableEq, Repr

/-- Run a sequence of cache operations, propagating panics. -/
def runOps (c : Cache) : List CacheOp → Option Cache
  | [] => some c
  | CacheOp.rd a :: rest =>
    match c.read a with
    | none => none
    | some (_, c1) => runOps c1 rest
  | CacheOp.wr a d :: rest =>
    match c.write a d with
    | none => none
    | some c1 => runOps c1 rest
  | CacheOp.rate :: rest =>
    let _ := c.get_hit_rate
    runOps c rest

/-- Number of `read` calls in an operation sequence. -/
def countReads : List CacheOp → Nat
  | [] => 0
  | CacheOp.rd _ :: rest => countReads rest + 1
  | _ :: rest => countReads rest

/-! ### Concrete states used by witnesses and counterexamples -/

/-- `SW R2, 5(R1)`: opcode 0x2B, rs = 1, rt = 2, imm = 5. -/
def instrSW : Nat := 0xAC220005

/-- `LW R2, 7(R1)`: opcode 0x23, rs = 1, rt = 2, imm = 7. -/
def instrLW : Nat := 0x8C220007

/-- `BEQ R0, R0, 3`: opcode 0x04, rs = 0, rt = 0, imm = 3. -/
def instrBEQ : Nat := 0x10000003

/-- A memory holding a single program word at address 0. -/
def memWith (w : Nat) : Memory :=
  ⟨fun a => if a = 0 then some w else none,
   fun a => if a = 0 then some WordKind.Instruction else none⟩

/-- The default cache geometry of the simulator (`Cache::new(4, 2)`). -/
def cacheW : Cache := Cache.new 4 2

/-- A halted CPU (for the no-op half of the halting claim). -/
def cpuHalted : CPU := ⟨fun _ => 0, 0, 7, true⟩

/-! ## Helper lemmas about the cache scan loops -/

/-- A block fetched by `getD` at an in-range position is a member. -/
theorem getD_mem (l : List CacheBlock) (q : Nat) (h : q < l.length) :
    l.getD q defBlock ∈ l := by
  induction l generalizing q with
  | nil => simp at h
  | cons b rest ih =>
    cases q with
    | zero => simp [List.getD]
    | succ q' =>
      have := ih q' (by simpa using h)
      simp [List.getD] at this ⊢
      exact Or.inr this

/-- The write scan fails exactly when no valid block carries the tag. -/
theorem writeScan_none_iff (tag d ac : Nat) (l : List CacheBlock) :
    writeScan tag d ac l = none ↔ ∀ b ∈ l, blockMatch tag b = false := by
  induction l with
  | nil => simp [writeScan]
  | cons b rest ih =>
    simp only [writeScan]
    by_cases hb : blockMatch tag b = true
    · rw [if_pos hb]
      simp [hb]
    · rw [if_neg hb]
      rw [Bool.not_eq_true] at hb
      cases hr : writeScan tag d ac rest with
      | none =>
        simp only [List.mem_cons]
        constructor
        · intro _ x hx
          rcases hx with h | h
          · subst h; exact hb
          · exact (ih.mp hr) x h
        · intro _; trivial
      | some rest' =>
        constructor
        · intro h; exact absurd h (by simp)
        · intro h
          have h2 : ∀ x ∈ rest, blockMatch tag x = false :=
            fun x hx => h x (List.mem_cons_of_mem _ hx)
          rw [ih.mpr h2] at hr
          exact absurd hr (by simp)

/-- The read scan fails when no valid block carries the tag. -/
theorem readScan_none_of_no_match (tag ac : Nat) (l : List CacheBlock)
    (h : ∀ b ∈ l, blockMatch tag b = false) : readScan tag ac l = none := by
  induction l with
  | nil => simp [readScan]
  | cons b rest ih =>
    have hb := h b (by simp)
    have hr := ih fun x hx => h x (by simp [hx])
    simp [readScan, hb, hr]

/-- After a successful in-place write-scan update, a read scan for the same
tag hits and returns the freshly written data. -/
theorem readScan_of_writeScan (tag d ac ac2 : Nat) (l l' : List CacheBlock)
    (h : writeScan tag d ac l = some l') :
    ∃ r, readScan tag ac2 l' = some (d, r) := by
  induction l generalizing l' with
  | nil => simp [writeScan] at h
  | cons b rest ih =>
    by_cases hb : blockMatch tag b = true
    · simp only [writeScan, hb, if_true] at h
      injection h with h
      subst h
      have hb' : blockMatch tag { b with data := d, last_used := ac } = true := by
        simpa [blockMatch] using hb
      simp [readScan, hb']
    · simp only [writeScan, hb, if_false] at h
      cases hr : writeScan tag d ac rest with
      | none => rw [hr] at h; simp at h
      | some rest' =>
        rw [hr] at h
        injection h with h
        subst h
        obtain ⟨r, hrr⟩ := ih rest' hr
        simp [readScan, hb, hrr]

/-- Appending a matching block to a match-free list makes the read scan hit it. -/
theorem readScan_append_of_none (tag ac : Nat) (l : List CacheBlock) (b : CacheBlock)
    (hl : ∀ x ∈ l, blockMatch tag x = false) (hb : blockMatch tag b = true) :
    ∃ r, readScan tag ac (l ++ [b]) = some (b.data, r) := by
  induction l with
  | nil => simp [readScan, hb]
  | cons x rest ih =>
    have hx := hl x (List.mem_cons_self x rest)
    obtain ⟨r, hr⟩ := ih fun y hy => hl y (List.mem_cons_of_mem _ hy)
    simp [readScan, hx, hr]

/-- Overwriting some position of a match-free list with a matching block makes
the read scan hit it. -/
theorem readScan_set_of_none (tag ac : Nat) (b : CacheBlock)
    (hb : blockMatch tag b = true) :
    ∀ (l : List CacheBlock) (j : Nat), (∀ x ∈ l, blockMatch tag x = false) →
      j < l.length → ∃ r, readScan tag ac (l.set j b) = some (b.data, r) := by
  intro l
  induction l with
  | nil => intro j _ hj; simp at hj
  | cons x rest ih =>
    intro j hl hj
    cases j with
    | zero => simp [readScan, hb]
    | succ j' =>
      have hx := hl x (List.mem_cons_self x rest)
      obtain ⟨r, hr⟩ :=
        ih j' (fun y hy => hl y (List.mem_cons_of_mem _ hy)) (by simpa using hj)
      simp [readScan, hx, hr]

/-! ## Helper lemmas about the LRU selection fold -/

/-- Complete characterisation of the LRU fold: either no element beats the
incoming bound and the accumulator survives, or the result points at the
first element attaining the minimum of the list (which beats the bound). -/
theorem lruFold_cases (l : List CacheBlock) : ∀ i jb mb : Nat,
    (lruFold l i jb mb = (jb, mb) ∧ ∀ b ∈ l, mb ≤ b.last_used) ∨
    (∃ p, p < l.length ∧ (lruFold l i jb mb).1 = i + p ∧
      (lruFold l i jb mb).2 = lastUsedAt l p ∧ lastUsedAt l p < mb ∧
      (∀ q, q < p → lastUsedAt l p < lastUsedAt l q) ∧
      (∀ q, q < l.length → lastUsedAt l p ≤ lastUsedAt l q)) := by
  induction l with
  | nil => intro i jb mb; exact Or.inl ⟨rfl, by simp⟩
  | cons b rest ih =>
    intro i jb mb
    by_cases hb : b.last_used < mb
    · simp only [lruFold, hb, if_true]
      rcases ih (i + 1) i b.last_used with ⟨heq, hall⟩ | ⟨p, hp, h1, h2, h3, h4, h5⟩
      · refine Or.inr ⟨0, by simp, ?_, ?_, ?_, ?_, ?_⟩
        · rw [heq]; simp
        · rw [heq]; simp [lastUsedAt]
        · simpa [lastUsedAt] using hb
        · intro q hq; omega
        · intro q hq
          cases q with
          | zero => exact Nat.le_refl _
          | succ q' =>
            simp only [lastUsedAt, List.getD_cons_zero, List.getD_cons_succ]
            exact hall _ (getD_mem rest q' (by simpa using hq))
      · refine Or.inr ⟨p + 1, by simpa using hp, ?_, ?_, ?_, ?_, ?_⟩
        · rw [h1]; omega
        · rw [h2]; simp [lastUsedAt]
        · simp only [lastUsedAt, List.getD_cons_succ]
          exact Nat.lt_trans h3 hb
        · intro q hq
          cases q with
          | zero =>
            simp only [lastUsedAt, List.getD_cons_succ, List.getD_cons_zero]
            exact h3
          | succ q' =>
            simp only [lastUsedAt, List.getD_cons_succ]
            exact h4 q' (by omega)
        · intro q hq
          cases q with
          | zero =>
            simp only [lastUsedAt, List.getD_cons_succ, List.getD_cons_zero]
            exact Nat.le_of_lt h3
          | succ q' =>
            simp only [lastUsedAt, List.getD_cons_succ]
            exact h5 q' (by simpa using hq)
    · simp only [lruFold, hb, if_false]
      have hble : mb ≤ b.last_used := Nat.le_of_not_lt hb
      rcases ih (i + 1) jb mb with ⟨heq, hall⟩ | ⟨p, hp, h1, h2, h3, h4, h5⟩
      · refine Or.inl ⟨heq, ?_⟩
        intro x hx
        rcases List.mem_cons.mp hx with h | h
        · subst h; exact hble
        · exact hall x h
      · refine Or.inr ⟨p + 1, by simpa using hp, ?_, ?_, ?_, ?_, ?_⟩
        · rw [h1]; omega
        · rw [h2]; simp [lastUsedAt]
        · simp only [lastUsedAt, List.getD_cons_succ]
          exact h3
        · intro q hq
          cases q with
          | zero =>
            simp only [lastUsedAt, List.getD_cons_succ, List.getD_cons_zero]
            exact Nat.lt_of_lt_of_le h3 hble
          | succ q' =>
            simp only [lastUsedAt, List.getD_cons_succ]
            exact h4 q' (by omega)
        · intro q hq
          cases q with
          | zero =>
            simp only [lastUsedAt, List.getD_cons_succ, List.getD_cons_zero]
            exact Nat.le_of_lt (Nat.lt_of_lt_of_le h3 hble)
          | succ q' =>
            simp only [lastUsedAt, List.getD_cons_succ]
            exact h5 q' (by simpa using hq)

/-- With `last_used` values in `u64` range (as in Rust), the LRU fold of
`Cache::write` selects the first position attaining the minimum. -/
theorem lruFold_firstMin (l : List CacheBlock) (hne : l ≠ [])
    (hu : ∀ b ∈ l, b.last_used ≤ U64MAX) :
    IsFirstMin l (lruFold l 0 0 U64MAX).1 := by
  rcases lruFold_cases l 0 0 U64MAX with ⟨heq, hall⟩ | ⟨p, hp, h1, h2, h3, h4, h5⟩
  · have hlen : 0 < l.length := List.length_pos.mpr hne
    have hfst : (lruFold l 0 0 U64MAX).1 = 0 := by rw [heq]
    rw [hfst]
    refine ⟨hlen, ?_, ?_⟩
    · intro k hk
      have e0 : lastUsedAt l 0 = U64MAX := by
        have m0 := getD_mem l 0 hlen
        exact Nat.le_antisymm (hu _ m0) (hall _ m0)
      have ek : U64MAX ≤ lastUsedAt l k := hall _ (getD_mem l k hk)
      omega
    · intro k hk; omega
  · rw [h1, Nat.zero_add]
    exact ⟨hp, h5, h4⟩

/-- The LRU fold always yields an in-range index on a nonempty list
(`Cache::write` never indexes out of bounds on a nonempty set). -/
theorem lruFold_fst_bound (l : List CacheBlock) : ∀ i jb mb : Nat,
    (lruFold l i jb mb).1 = jb ∨
    (i ≤ (lruFold l i jb mb).1 ∧ (lruFold l i jb mb).1 < i + l.length) := by
  induction l with
  | nil => intro i jb mb; exact Or.inl rfl
  | cons b rest ih =>
    intro i jb mb
    by_cases hb : b.last_used < mb
    · simp only [lruFold, hb, if_true]
      rcases ih (i + 1) i b.last_used with h | ⟨h1, h2⟩
      · right; rw [h]; simp only [List.length_cons]; omega
      · right; simp only [List.length_cons]; omega
    · simp only [lruFold, hb, if_false]
      rcases ih (i + 1) jb mb with h | ⟨h1, h2⟩
      · left; exact h
      · right; simp only [List.length_cons]; omega

/-- On a nonempty list the selected LRU index is in range. -/
theorem lruFold_lt_length (l : List CacheBlock) (hne : l ≠ []) :
    (lruFold l 0 0 U64MAX).1 < l.length := by
  have hlen : 0 < l.length := List.length_pos.mpr hne
  rcases lruFold_fst_bound l 0 0 U64MAX with h | ⟨_, h2⟩
  · omega
  · simpa using h2

/-! ## Helper lemmas about `firstMatch` -/

/-- `firstMatch` fails exactly when no valid block carries the tag. -/
theorem firstMatch_none_iff (tag : Nat) (l : List CacheBlock) :
    firstMatch tag l = none ↔ ∀ b ∈ l, blockMatch tag b = false := by
  induction l with
  | nil => simp [firstMatch]
  | cons b rest ih =>
    simp only [firstMatch]
    by_cases hb : blockMatch tag b = true
    · rw [if_pos hb]
      simp [hb]
    · rw [if_neg hb]
      rw [Bool.not_eq_true] at hb
      cases hf : firstMatch tag rest with
      | none =>
        simp only [Option.map_none', List.mem_cons]
        constructor
        · intro _ x hx
          rcases hx with h | h
          · subst h; exact hb
          · exact (ih.mp hf) x h
        · intro _; trivial
      | some j =>
        simp only [Option.map_some']
        constructor
        · intro h; exact absurd h (by simp)
        · intro h
          have h2 : ∀ x ∈ rest, blockMatch tag x = false :=
            fun x hx => h x (List.mem_cons_of_mem _ hx)
          rw [ih.mpr h2] at hf
          exact absurd hf (by simp)

/-- The write scan realises the spec: it updates (in place) exactly the first
valid block carrying the tag. -/
theorem writeScan_of_firstMatch (tag d ac : Nat) (l : List CacheBlock) (j : Nat)
    (h : firstMatch tag l = some j) :
    writeScan tag d ac l =
      some (l.set j { l.getD j defBlock with data := d, last_used := ac }) := by
  induction l generalizing j with
  | nil => simp [firstMatch] at h
  | cons b rest ih =>
    by_cases hb : blockMatch tag b = true
    · simp only [firstMatch, hb, if_true] at h
      injection h with h
      subst h
      simp [writeScan, hb, List.set_cons_zero, List.getD_cons_zero]
    · simp only [firstMatch, hb, if_false] at h
      cases hf : firstMatch tag rest with
      | none => rw [hf] at h; simp at h
      | some j' =>
        rw [hf] at h
        simp only [Option.map_some'] at h
        injection h with h
        subst h
        simp only [writeScan, hb, if_false, ih j' hf, List.set_cons_succ,
          List.getD_cons_succ, Bool.false_eq_true]

/-! ## Cache-level helper lemmas -/

/-- Unpack the decidable well-formedness predicate. -/
theorem wf_spec (c : Cache) (h : c.wf = true) :
    c.num_sets % 256 ≠ 0 ∧ 0 < c.blocks_per_set ∧
    ∀ i, i < 256 → ∀ s, c.sets i = some s → 0 < s.capacity := by
  simp only [Cache.wf, Bool.and_eq_true, List.all_eq_true, decide_eq_true_eq] at h
  obtain ⟨⟨h1, h2⟩, h3⟩ := h
  refine ⟨h1, h2, ?_⟩
  intro i hi s hs
  have h4 := h3 i (List.mem_range.mpr hi)
  rw [hs] at h4
  simpa using h4

/-- Build the well-formedness predicate from its parts. -/
theorem wf_intro (c : Cache) (h1 : c.num_sets % 256 ≠ 0) (h2 : 0 < c.blocks_per_set)
    (h3 : ∀ i, i < 256 → ∀ s, c.sets i = some s → 0 < s.capacity) : c.wf = true := by
  simp only [Cache.wf, Bool.and_eq_true, List.all_eq_true, decide_eq_true_eq]
  refine ⟨⟨h1, h2⟩, ?_⟩
  intro i hi
  cases hs : c.sets i with
  | none => rfl
  | some s => simpa using h3 i (List.mem_range.mp hi) s hs

/-- A fresh cache with a usable geometry is well formed. -/
theorem wf_new (n b : Nat) (hn : n % 256 ≠ 0) (hb : 0 < b) :
    (Cache.new n b).wf = true := by
  refine wf_intro _ hn hb ?_
  intro i _ s hs
  simp only [Cache.new] at hs
  by_cases hi : i < min n 256
  · rw [if_pos hi] at hs
    injection hs with hs
    subst hs
    exact hb
  · rw [if_neg hi] at hs
    exact absurd hs (by simp)

/-- The tag/set pair computed by a cache with nonzero truncated set count. -/
theorem get_tag_and_set_eq (c : Cache) (addr : Nat) (hn : c.num_sets % 256 ≠ 0) :
    c.get_tag_and_set addr =
      some (addr / (c.num_sets % 256), addr % (c.num_sets % 256)) := by
  simp [Cache.get_tag_and_set, hn]

/-- `Cache::read` never fails when the truncated set count is nonzero, and
its effect on the non-content state is fully described here: counters,
geometry, and set capacities. -/
theorem read_elim (c : Cache) (addr : Nat) (hn : c.num_sets % 256 ≠ 0) :
    ∃ v hit c1, c.read addr = some ((v, hit), c1) ∧
      c1.num_sets = c.num_sets ∧
      c1.blocks_per_set = c.blocks_per_set ∧
      c1.access_counter = c.access_counter + 1 ∧
      (∀ i s1, c1.sets i = some s1 → ∃ s, c.sets i = some s ∧ s1.capacity = s.capacity) ∧
      ((hit = true ∧ c1.hits = c.hits + 1 ∧ c1.misses = c.misses) ∨
       (hit = false ∧ c1.hits = c.hits ∧ c1.misses = c.misses + 1)) := by
  have hget := get_tag_and_set_eq c addr hn
  cases hs : c.sets (addr % (c.num_sets % 256)) with
  | none =>
    have heq : c.read addr = some ((0, false),
        { c with access_counter := c.access_counter + 1, misses := c.misses + 1 }) := by
      simp only [Cache.read, hget, hs]
    exact ⟨0, false, _, heq, rfl, rfl, rfl, fun i s1 h1 => ⟨s1, h1, rfl⟩,
      Or.inr ⟨rfl, rfl, rfl⟩⟩
  | some s =>
    cases hr : readScan (addr / (c.num_sets % 256)) (c.access_counter + 1) s.blocks with
    | none =>
      have heq : c.read addr = some ((0, false),
          { c with access_counter := c.access_counter + 1, misses := c.misses + 1 }) := by
        simp only [Cache.read, hget, hs, hr]
      exact ⟨0, false, _, heq, rfl, rfl, rfl, fun i s1 h1 => ⟨s1, h1, rfl⟩,
        Or.inr ⟨rfl, rfl, rfl⟩⟩
    | some p =>
      obtain ⟨d, blocks'⟩ := p
      have heq : c.read addr = some ((d, true),
          { c with
            access_counter := c.access_counter + 1
            hits := c.hits + 1
            sets := fun i => if i = addr % (c.num_sets % 256)
              then some { s with blocks := blocks' } else c.sets i }) := by
        simp only [Cache.read, hget, hs, hr]
      refine ⟨d, true, _, heq, rfl, rfl, rfl, ?_, Or.inl ⟨rfl, rfl, rfl⟩⟩
      intro i s1 h1
      have h2 : (if i = addr % (c.num_sets % 256)
          then some { s with blocks := blocks' } else c.sets i) = some s1 := h1
      by_cases hi : i = addr % (c.num_sets % 256)
      · rw [if_pos hi] at h2
        injection h2 with h2
        subst hi
        exact ⟨s, hs, by rw [← h2]⟩
      · rw [if_neg hi] at h2
        exact ⟨s1, h2, rfl⟩

/-- `Cache::write` never fails when the truncated set count is nonzero and the
target set's capacity is positive. -/
theorem write_some (c : Cache) (addr d : Nat) (hn : c.num_sets % 256 ≠ 0)
    (hcap : 0 < ((c.sets (addr % (c.num_sets % 256))).getD ⟨[], c.blocks_per_set⟩).capacity) :
    ∃ c1, c.write addr d = some c1 := by
  have hget := get_tag_and_set_eq c addr hn
  set s := (c.sets (addr % (c.num_sets % 256))).getD ⟨[], c.blocks_per_set⟩ with hsdef
  rw [← Option.isSome_iff_exists]
  cases hws : writeScan (addr / (c.num_sets % 256)) d (c.access_counter + 1) s.blocks with
  | some bs =>
    simp only [Cache.write, hget, ← hsdef, hws, Option.isSome_some]
  | none =>
    by_cases hlen : s.blocks.length < s.capacity
    · simp only [Cache.write, hget, ← hsdef, hws, hlen, if_true, Option.isSome_some]
    · have hne : s.blocks.isEmpty = false := by
        cases hbs : s.blocks with
        | nil => rw [hbs] at hlen; simp at hlen; omega
        | cons x rest => rfl
      simp only [Cache.write, hget, ← hsdef, hws, hlen, if_false, hne,
        Bool.false_eq_true, ite_false, Option.isSome_some]

/-- What `Cache::write` preserves: everything except the target set's blocks
and the access counter (counters untouched; capacities preserved or set to
`blocks_per_set` for an on-demand set). -/
theorem write_pres (c : Cache) (addr d : Nat) (c1 : Cache)
    (hw : c.write addr d = some c1) :
    c1.num_sets = c.num_sets ∧ c1.blocks_per_set = c.blocks_per_set ∧
    c1.access_counter = c.access_counter + 1 ∧
    c1.hits = c.hits ∧ c1.misses = c.misses ∧
    (∀ i s1, c1.sets i = some s1 →
      (∃ s, c.sets i = some s ∧ s1.capacity = s.capacity) ∨
      s1.capacity = c.blocks_per_set) := by
  simp only [Cache.write, Cache.get_tag_and_set] at hw
  by_cases hn : c.num_sets % 256 = 0
  · rw [if_pos hn] at hw
    exact absurd hw (by simp)
  · rw [if_neg hn] at hw
    simp only at hw
    split at hw
    · exact absurd hw (by simp)
    · rename_i blocks' _
      injection hw with hw
      subst hw
      refine ⟨rfl, rfl, rfl, rfl, rfl, ?_⟩
      intro i s1 h1
      have h2 : (if i = addr % (c.num_sets % 256)
          then some (⟨blocks',
            ((c.sets (addr % (c.num_sets % 256))).getD ⟨[], c.blocks_per_set⟩).capacity⟩ :
              CacheSet)
          else c.sets i) = some s1 := h1
      by_cases hi : i = addr % (c.num_sets % 256)
      · rw [if_pos hi] at h2
        injection h2 with h2
        subst hi
        rw [← h2]
        cases hs : c.sets (addr % (c.num_sets % 256)) with
        | some s0 => exact Or.inl ⟨s0, rfl, by simp [hs]⟩
        | none => exact Or.inr (by simp [hs])
      · rw [if_neg hi] at h2
        exact Or.inl ⟨s1, h2, rfl⟩

/-- Reading preserves well-formedness. -/
theorem wf_read (c : Cache) (addr : Nat) (v : Nat) (hit : Bool) (c1 : Cache)
    (hwf : c.wf = true) (hr : c.read addr = some ((v, hit), c1)) : c1.wf = true := by
  obtain ⟨h1, h2, h3⟩ := wf_spec c hwf
  obtain ⟨v', hit', c1', hr', e1, e2, _, hsets, _⟩ := read_elim c addr h1
  rw [hr] at hr'
  injection hr' with h
  injection h with hp hc
  subst hc
  refine wf_intro _ (by rwa [e1]) (by rwa [e2]) ?_
  intro i hi s1 hs1
  rcases hsets i s1 hs1 with ⟨s, hs, hcap⟩
  rw [hcap]
  exact h3 i hi s hs

/-- Writing preserves well-formedness. -/
theorem wf_write (c : Cache) (addr d : Nat) (c1 : Cache)
    (hwf : c.wf = true) (hw : c.write addr d = some c1) : c1.wf = true := by
  obtain ⟨h1, h2, h3⟩ := wf_spec c hwf
  obtain ⟨e1, e2, _, _, _, hsets⟩ := write_pres c addr d c1 hw
  refine wf_intro _ (by rwa [e1]) (by rwa [e2]) ?_
  intro i hi s1 hs1
  rcases hsets i s1 hs1 with ⟨s, hs, hcap⟩ | hbps
  · rw [hcap]
    exact h3 i hi s hs
  · rw [hbps]
    exact h2

/-- A well-formed cache accepts any write. -/
theorem write_some_of_wf (c : Cache) (addr d : Nat) (hwf : c.wf = true) :
    ∃ c1, c.write addr d = some c1 := by
  obtain ⟨h1, h2, h3⟩ := wf_spec c hwf
  refine write_some c addr d h1 ?_
  cases hs : c.sets (addr % (c.num_sets % 256)) with
  | none => simpa using h2
  | some s =>
    have hlt : addr % (c.num_sets % 256) < 256 := by
      have ha : c.num_sets % 256 < 256 := Nat.mod_lt _ (by omega)
      have hb : addr % (c.num_sets % 256) < c.num_sets % 256 :=
        Nat.mod_lt addr (by omega)
      omega
    simpa using h3 _ hlt s hs

/-- A successful read forces a nonzero truncated set count. -/
theorem read_ns_nonzero (c : Cache) (addr : Nat) (x : (Nat × Bool) × Cache)
    (hr : c.read addr = some x) : c.num_sets % 256 ≠ 0 := by
  intro h0
  have hnone : c.read addr = none := by
    simp [Cache.read, Cache.get_tag_and_set, h0]
  rw [hnone] at hr
  exact absurd hr (by simp)

/-- A successful write forces a nonzero truncated set count. -/
theorem write_ns_nonzero (c : Cache) (addr d : Nat) (c1 : Cache)
    (hw : c.write addr d = some c1) : c.num_sets % 256 ≠ 0 := by
  intro h0
  have hnone : c.write addr d = none := by
    simp [Cache.write, Cache.get_tag_and_set, h0]
  rw [hnone] at hw
  exact absurd hw (by simp)

/-- Counter effect of `Cache::read`: exactly one of `hits`/`misses` grows by
one, matching the returned hit flag. -/
theorem read_counters (c : Cache) (addr : Nat) (v : Nat) (hit : Bool) (c1 : Cache)
    (hr : c.read addr = some ((v, hit), c1)) :
    (hit = true ∧ c1.hits = c.hits + 1 ∧ c1.misses = c.misses) ∨
    (hit = false ∧ c1.hits = c.hits ∧ c1.misses = c.misses + 1) := by
  have hn := read_ns_nonzero c addr _ hr
  obtain ⟨v', hit', c1', hr', _, _, _, _, hcnt⟩ := read_elim c addr hn
  rw [hr] at hr'
  injection hr' with h
  injection h with hp hc
  injection hp with hv hh
  subst hh; subst hc
  exact hcnt

/-- Counter effect of `Cache::write`: none. -/
theorem write_counters (c : Cache) (addr d : Nat) (c1 : Cache)
    (hw : c.write addr d = some c1) : c1.hits = c.hits ∧ c1.misses = c.misses := by
  obtain ⟨_, _, _, hh, hm, _⟩ := write_pres c addr d c1 hw
  exact ⟨hh, hm⟩

/-- Over any successful run, `hits + misses` grows by exactly the number of
read operations, and both counters are monotone. -/
theorem runOps_counters (ops : List CacheOp) : ∀ c c1 : Cache,
    runOps c ops = some c1 →
    c1.hits + c1.misses = c.hits + c.misses + countReads ops ∧
    c.hits ≤ c1.hits ∧ c.misses ≤ c1.misses := by
  induction ops with
  | nil =>
    intro c c1 h
    injection h with h
    subst h
    simp [countReads]
  | cons op rest ih =>
    intro c c1 h
    cases op with
    | rd a =>
      simp only [runOps] at h
      split at h
      · exact absurd h (by simp)
      · rename_i p c2 heq
        obtain ⟨hsum, hh, hm⟩ := ih c2 c1 h
        obtain ⟨v, hit⟩ := p
        rcases read_counters c a v hit c2 heq with ⟨_, e1, e2⟩ | ⟨_, e1, e2⟩ <;>
          · simp only [countReads]
            omega
    | wr a d =>
      simp only [runOps] at h
      split at h
      · exact absurd h (by simp)
      · rename_i c2 heq
        obtain ⟨hsum, hh, hm⟩ := ih c2 c1 h
        obtain ⟨e1, e2⟩ := write_counters c a d c2 heq
        simp only [countReads]
        omega
    | rate =>
      simp only [runOps] at h
      obtain ⟨hsum, hh, hm⟩ := ih c c1 h
      simp only [countReads]
      omega

/-- A well-formed cache executes any operation sequence without failure,
ending well formed. -/
theorem runOps_total (ops : List CacheOp) : ∀ c : Cache, c.wf = true →
    ∃ c1, runOps c ops = some c1 ∧ c1.wf = true := by
  induction ops with
  | nil => intro c hwf; exact ⟨c, rfl, hwf⟩
  | cons op rest ih =>
    intro c hwf
    cases op with
    | rd a =>
      obtain ⟨h1, _, _⟩ := wf_spec c hwf
      obtain ⟨v, hit, c1, hr, _⟩ := read_elim c a h1
      have hwf1 := wf_read c a v hit c1 hwf hr
      obtain ⟨c2, hrun, hwf2⟩ := ih c1 hwf1
      refine ⟨c2, ?_, hwf2⟩
      simp only [runOps, hr]
      exact hrun
    | wr a d =>
      obtain ⟨c1, hw⟩ := write_some_of_wf c a d hwf
      have hwf1 := wf_write c a d c1 hwf hw
      obtain ⟨c2, hrun, hwf2⟩ := ih c1 hwf1
      refine ⟨c2, ?_, hwf2⟩
      simp only [runOps, hw]
      exact hrun
    | rate =>
      obtain ⟨c2, hrun, hwf2⟩ := ih c hwf
      refine ⟨c2, ?_, hwf2⟩
      simpa [runOps] using hrun

/-- Explicit result of a hitting `Cache::read`. -/
theorem read_hit_eq (c : Cache) (addr : Nat) (hn : c.num_sets % 256 ≠ 0)
    (s : CacheSet) (hs : c.sets (addr % (c.num_sets % 256)) = some s)
    (d : Nat) (r : List CacheBlock)
    (hscan : readScan (addr / (c.num_sets % 256)) (c.access_counter + 1) s.blocks
      = some (d, r)) :
    c.read addr = some ((d, true),
      { c with
        access_counter := c.access_counter + 1
        hits := c.hits + 1
        sets := fun i => if i = addr % (c.num_sets % 256)
          then some { s with blocks := r } else c.sets i }) := by
  have hget := get_tag_and_set_eq c addr hn
  simp only [Cache.read, hget, hs, hscan]

/-- C6: a `write(addr, d)` immediately followed by `read(addr)` hits and
returns the written data: the write leaves a valid block with the address's
tag in the address's set (updated in place, appended, or LRU-replaced), and
the read scan finds exactly that block. -/
theorem cache_write_then_read_hit (c : Cache) (addr d : Nat) (c' : Cache)
    (hw : c.write addr d = some c') :
    ∃ c'', c'.read addr = some ((d, true), c'') := by
  have hn := write_ns_nonzero c addr d c' hw
  have hget := get_tag_and_set_eq c addr hn
  simp only [Cache.write, hget] at hw
  split at hw
  · exact absurd hw (by simp)
  · rename_i blocks' hbl
    injection hw with hw
    subst hw
    have hscan : ∃ r,
        readScan (addr / (c.num_sets % 256)) (c.access_counter + 1 + 1) blocks'
          = some (d, r) := by
      split at hbl
      · rename_i bs hws
        injection hbl with hbl
        subst hbl
        exact readScan_of_writeScan _ d _ _ _ _ hws
      · rename_i hws
        have hnom : ∀ x ∈ ((c.sets (addr % (c.num_sets % 256))).getD
            ⟨[], c.blocks_per_set⟩).blocks,
            blockMatch (addr / (c.num_sets % 256)) x = false :=
          (writeScan_none_iff _ _ _ _).mp hws
        split at hbl
        · injection hbl with hbl
          subst hbl
          exact readScan_append_of_none _ _ _ _ hnom (by simp [blockMatch])
        · split at hbl
          · exact absurd hbl (by simp)
          · rename_i hlen hemp
            injection hbl with hbl
            subst hbl
            have hne : ((c.sets (addr % (c.num_sets % 256))).getD
                ⟨[], c.blocks_per_set⟩).blocks ≠ [] := by
              intro h0
              rw [h0] at hemp
              simp at hemp
            exact readScan_set_of_none _ _ _ (by simp [blockMatch]) _ _ hnom
              (lruFold_lt_length _ hne)
    obtain ⟨r, hrr⟩ := hscan
    refine ⟨_, read_hit_eq _ addr ?_
      ⟨blocks', ((c.sets (addr % (c.num_sets % 256))).getD
        ⟨[], c.blocks_per_set⟩).capacity⟩
      ?_ d r ?_⟩
    · exact hn
    · simp
    · exact hrr

set_option maxRecDepth 4000 in
/-- Witness for C6 at a concrete input: write 77 at address 9 into a fresh
4-set 2-way cache, then read address 9 back. -/
theorem cache_write_then_read_hit_witness :
    ∃ c' c'', (Cache.new 4 2).write 9 77 = some c' ∧
      c'.read 9 = some ((77, true), c'') := by
  obtain ⟨c', hw⟩ := write_some_of_wf (Cache.new 4 2) 9 77 (by decide)
  obtain ⟨c'', hr⟩ := cache_write_then_read_hit (Cache.new 4 2) 9 77 c' hw
  exact ⟨c', c'', hw, hr⟩

/-- C7: hit/miss counters — each successful read bumps exactly one of the two
counters by one, writes change neither, both are monotone along any run, and
from a fresh cache `hits + misses` equals the number of read calls. -/
theorem cache_counters_spec :
    (∀ (c : Cache) (addr v : Nat) (hit : Bool) (c1 : Cache),
        c.read addr = some ((v, hit), c1) →
        (c1.hits = c.hits + 1 ∧ c1.misses = c.misses) ∨
        (c1.hits = c.hits ∧ c1.misses = c.misses + 1)) ∧
    (∀ (c : Cache) (addr d : Nat) (c1 : Cache), c.write addr d = some c1 →
        c1.hits = c.hits ∧ c1.misses = c.misses) ∧
    (∀ (c : Cache) (ops : List CacheOp) (c1 : Cache), runOps c ops = some c1 →
        c.hits ≤ c1.hits ∧ c.misses ≤ c1.misses) ∧
    (∀ (n b : Nat) (ops : List CacheOp) (c1 : Cache),
        runOps (Cache.new n b) ops = some c1 →
        c1.hits + c1.misses = countReads ops) := by
  refine ⟨?_, ?_, ?_, ?_⟩
  · intro c addr v hit c1 hr
    rcases read_counters c addr v hit c1 hr with ⟨_, e1, e2⟩ | ⟨_, e1, e2⟩
    · exact Or.inl ⟨e1, e2⟩
    · exact Or.inr ⟨e1, e2⟩
  · intro c addr d c1 hw
    exact write_counters c addr d c1 hw
  · intro c ops c1 hrun
    obtain ⟨_, hh, hm⟩ := runOps_counters ops c c1 hrun
    exact ⟨hh, hm⟩
  · intro n b ops c1 hrun
    obtain ⟨hsum, _, _⟩ := runOps_counters ops (Cache.new n b) c1 hrun
    simpa [Cache.new] using hsum

set_option maxRecDepth 4000 in
/-- Witness for C7: one read against the default fresh 4-set 2-way cache
leaves `hits + misses = 1`. -/
theorem cache_counters_spec_witness :
    ∃ c1, runOps (Cache.new 4 2) [CacheOp.rd 0] = some c1 ∧
      c1.hits + c1.misses = 1 := by
  obtain ⟨c1, hrun, _⟩ :=
    runOps_total [CacheOp.rd 0] (Cache.new 4 2) (wf_new 4 2 (by decide) (by decide))
  exact ⟨c1, hrun, cache_counters_spec.2.2.2 4 2 [CacheOp.rd 0] c1 hrun⟩

/-- C9 (amended): with a positive `blocks_per_set` and a `num_sets` whose low
8 bits are nonzero, no sequence of cache operations can fail. -/
theorem cache_ops_total (n b : Nat) (hn : n % 256 ≠ 0) (hb : 0 < b)
    (ops : List CacheOp) : ∃ c1, runOps (Cache.new n b) ops = some c1 := by
  obtain ⟨c1, hrun, _⟩ := runOps_total ops (Cache.new n b) (wf_new n b hn hb)
  exact ⟨c1, hrun⟩

/-- C9 counterexample: `num_sets = 256` is positive, yet `Cache::new(256, 1)`
panics on its first `read` — `num_sets as u8` is `0` and
`addr % (num_sets as u8)` divides by zero (modelled as `none`). -/
theorem cache_ops_total_cex :
    0 < 256 ∧ 0 < 1 ∧ Cache.read (Cache.new 256 1) 0 = none :=
  ⟨by decide, by decide, rfl⟩

set_option maxRecDepth 4000 in
/-- Witness for C9 at a concrete geometry and operation sequence. -/
theorem cache_ops_total_witness :
    ∃ c1, runOps (Cache.new 4 2)
      [CacheOp.rd 0, CacheOp.wr 1 5, CacheOp.rate, CacheOp.rd 1] = some c1 :=
  cache_ops_total 4 2 (by decide) (by decide) _

/-- C3 (amended, for `1 ≤ num_sets ≤ 255` and `last_used` values in `u64`
range): a successful `write(addr, data)` targets set `addr mod num_sets` with
tag `addr div num_sets`, leaves every other set and both hit/miss counters
unchanged, bumps the access counter, and updates the target set by: in-place
update of the first valid tag-matching block; else append when below
capacity; else overwrite of the block with the smallest `last_used`
(first-found on ties). -/
theorem cache_write_behavior (c : Cache) (addr d : Nat)
    (h0 : 0 < c.num_sets) (h256 : c.num_sets < 256) (c' : Cache)
    (hw : c.write addr d = some c')
    (hu : ∀ bl ∈ ((c.sets (addr % c.num_sets)).getD ⟨[], c.blocks_per_set⟩).blocks,
      bl.last_used ≤ U64MAX) :
    c'.access_counter = c.access_counter + 1 ∧
    c'.hits = c.hits ∧ c'.misses = c.misses ∧
    (∀ i, i ≠ addr % c.num_sets → c'.sets i = c.sets i) ∧
    (∃ bs', c'.sets (addr % c.num_sets) =
        some ⟨bs', ((c.sets (addr % c.num_sets)).getD ⟨[], c.blocks_per_set⟩).capacity⟩ ∧
      ((∃ j, firstMatch (addr / c.num_sets)
            ((c.sets (addr % c.num_sets)).getD ⟨[], c.blocks_per_set⟩).blocks = some j ∧
          bs' = (((c.sets (addr % c.num_sets)).getD ⟨[], c.blocks_per_set⟩).blocks).set j
            { (((c.sets (addr % c.num_sets)).getD ⟨[], c.blocks_per_set⟩).blocks).getD j defBlock
              with data := d, last_used := c.access_counter + 1 }) ∨
       (firstMatch (addr / c.num_sets)
            ((c.sets (addr % c.num_sets)).getD ⟨[], c.blocks_per_set⟩).blocks = none ∧
          (((c.sets (addr % c.num_sets)).getD ⟨[], c.blocks_per_set⟩).blocks).length <
            ((c.sets (addr % c.num_sets)).getD ⟨[], c.blocks_per_set⟩).capacity ∧
          bs' = (((c.sets (addr % c.num_sets)).getD ⟨[], c.blocks_per_set⟩).blocks) ++
            [⟨addr / c.num_sets, d, true, c.access_counter + 1⟩]) ∨
       (firstMatch (addr / c.num_sets)
            ((c.sets (addr % c.num_sets)).getD ⟨[], c.blocks_per_set⟩).blocks = none ∧
          ¬ (((c.sets (addr % c.num_sets)).getD ⟨[], c.blocks_per_set⟩).blocks).length <
            ((c.sets (addr % c.num_sets)).getD ⟨[], c.blocks_per_set⟩).capacity ∧
          ∃ j, IsFirstMin (((c.sets (addr % c.num_sets)).getD ⟨[], c.blocks_per_set⟩).blocks) j ∧
            bs' = (((c.sets (addr % c.num_sets)).getD ⟨[], c.blocks_per_set⟩).blocks).set j
              ⟨addr / c.num_sets, d, true, c.access_counter + 1⟩))) := by
  have hmod : c.num_sets % 256 = c.num_sets := Nat.mod_eq_of_lt h256
  have hn : c.num_sets % 256 ≠ 0 := by omega
  have hget : c.get_tag_and_set addr = some (addr / c.num_sets, addr % c.num_sets) := by
    rw [get_tag_and_set_eq c addr hn, hmod]
  simp only [Cache.write, hget] at hw
  split at hw
  · exact absurd hw (by simp)
  · rename_i blocks' hbl
    injection hw with hw
    subst hw
    refine ⟨rfl, rfl, rfl, ?_, ?_⟩
    · intro i hi
      exact if_neg hi
    · refine ⟨blocks', by simp, ?_⟩
      split at hbl
      · rename_i bs hws
        injection hbl with hbl
        subst hbl
        cases hf : firstMatch (addr / c.num_sets)
            ((c.sets (addr % c.num_sets)).getD ⟨[], c.blocks_per_set⟩).blocks with
        | none =>
          rw [(writeScan_none_iff _ d (c.access_counter + 1) _).mpr
            ((firstMatch_none_iff _ _).mp hf)] at hws
          exact absurd hws (by simp)
        | some j =>
          have := writeScan_of_firstMatch (addr / c.num_sets) d (c.access_counter + 1) _ j hf
          rw [this] at hws
          injection hws with hws
          exact Or.inl ⟨j, rfl, hws.symm⟩
      · rename_i hws
        have hf : firstMatch (addr / c.num_sets)
            ((c.sets (addr % c.num_sets)).getD ⟨[], c.blocks_per_set⟩).blocks = none :=
          (firstMatch_none_iff _ _).mpr ((writeScan_none_iff _ _ _ _).mp hws)
        split at hbl
        · rename_i hlen
          injection hbl with hbl
          subst hbl
          exact Or.inr (Or.inl ⟨hf, hlen, rfl⟩)
        · split at hbl
          · exact absurd hbl (by simp)
          · rename_i hlen hemp
            injection hbl with hbl
            subst hbl
            have hne : ((c.sets (addr % c.num_sets)).getD
                ⟨[], c.blocks_per_set⟩).blocks ≠ [] := by
              intro h0'
              rw [h0'] at hemp
              simp at hemp
            exact Or.inr (Or.inr ⟨hf, hlen, _, lruFold_firstMin _ hne hu, rfl⟩)

set_option maxRecDepth 4000 in
/-- C3 counterexample: with `num_sets = 257` (a legal construction), writing
address 1 lands in set `1 % (257 as u8) = 0` with tag 1, not in set
`1 mod 257 = 1` with tag `1 div 257 = 0` as the claim's decomposition
requires; set 1 stays empty. -/
theorem cache_write_behavior_cex :
    (1 % 257 = 1 ∧ 1 / 257 = 0) ∧
    ((Cache.new 257 1).write 1 42).map (fun c => (c.sets 0, c.sets 1)) =
      some (some ⟨[⟨1, 42, true, 1⟩], 1⟩, some ⟨[], 1⟩) := ⟨by decide, by decide⟩

set_option maxRecDepth 4000 in
/-- Witness for C3 at a concrete input (fresh default cache, append case). -/
theorem cache_write_behavior_witness :
    ∃ c', (Cache.new 4 2).write 5 7 = some c' ∧
      c'.access_counter = 1 ∧ c'.hits = 0 ∧ c'.misses = 0 := by
  obtain ⟨c', hw⟩ := write_some_of_wf (Cache.new 4 2) 5 7 (by decide)
  obtain ⟨h1, h2, h3, _⟩ :=
    cache_write_behavior (Cache.new 4 2) 5 7 (by decide) (by decide) c' hw (by decide)
  exact ⟨c', hw, h1, h2, h3⟩

/-! ## CPU-level helper lemmas -/

/-- A non-halted step is the dispatch followed by the cycle/halt epilogue. -/
theorem step_eq (cpu : CPU) (mem : Memory) (cache : Cache) (hh : cpu.halted = false) :
    CPU.step cpu mem cache =
      (CPU.exec cpu mem cache ((mem.data cpu.pc).getD 0)).map finishStep := by
  simp [CPU.step, hh]

/-- The epilogue only bumps the cycle counter and possibly sets the halt
flag; memory, cache, PC and registers pass through. -/
theorem finishStep_mc (t : CPU × Memory × Cache) :
    (finishStep t).2.1 = t.2.1 ∧ (finishStep t).2.2 = t.2.2 ∧
    (finishStep t).1.pc = t.1.pc ∧ (finishStep t).1.registers = t.1.registers ∧
    (finishStep t).1.cycle = t.1.cycle + 1 :=
  ⟨rfl, rfl, rfl, rfl, rfl⟩

/-- After a non-halted instruction, the engine is halted exactly when the
(updated) backing memory has no entry at the new PC. -/
theorem finishStep_halted (t : CPU × Memory × Cache) (hhalt : t.1.halted = false) :
    ((finishStep t).1.halted = true ↔ t.2.1.data t.1.pc = none) := by
  show (if t.2.1.data t.1.pc = none then true else t.1.halted) = true ↔ _
  by_cases h : t.2.1.data t.1.pc = none
  · simp [h]
  · simp [h, hhalt]

/-- The dispatch never changes the halt flag and never changes the cycle
counter (both belong to the epilogue). -/
theorem exec_parts (cpu : CPU) (mem : Memory) (cache : Cache) (instr : Nat)
    (t : CPU × Memory × Cache) (h : CPU.exec cpu mem cache instr = some t) :
    t.1.halted = cpu.halted ∧ t.1.cycle = cpu.cycle := by
  simp only [CPU.exec] at h
  split_ifs at h <;>
    first
    | (injection h with h; subst h; exact ⟨rfl, rfl⟩)
    | (repeat' split at h
       all_goals
         first
         | (injection h with h; subst h; exact ⟨rfl, rfl⟩)
         | simp at h)

/-- Inserting into the data map never removes an entry. -/
theorem insertData_domain (m : Memory) (k d a v : Nat) (hv : m.data a = some v) :
    ∃ v', (m.insertData k d).data a = some v' := by
  by_cases ha : a = k
  · exact ⟨d, by simp [Memory.insertData, ha]⟩
  · exact ⟨v, by simp [Memory.insertData, ha, hv]⟩

/-- The dispatch never removes a backing-memory entry: it only ever inserts
(at the LW-miss-create and SW paths). -/
theorem exec_mem_domain (cpu : CPU) (mem : Memory) (cache : Cache) (instr : Nat)
    (t : CPU × Memory × Cache) (h : CPU.exec cpu mem cache instr = some t) :
    ∀ a v, mem.data a = some v → ∃ v', t.2.1.data a = some v' := by
  intro a v hv
  simp only [CPU.exec] at h
  split_ifs at h <;>
    first
    | (injection h with h; subst h; exact ⟨v, hv⟩)
    | (repeat' split at h
       all_goals
         first
         | (injection h with h; subst h; exact ⟨v, hv⟩)
         | (injection h with h; subst h; exact insertData_domain _ _ _ a v hv)
         | simp at h)

/-- The effective LW/SW address computed by the code,
`(regs[rs].wrapping_add(imm as u32)) & 0xFF`, equals the spec-side
`(reg[rs] + sign_extend16(imm)) mod 256`. -/
theorem code_addr_eq (x instr : Nat) :
    (x + immU32 instr) % U32 % 256 = ((((x : Int) + immS instr) % 256).toNat) := by
  have hy : CPU.imm instr ≤ 65535 := Nat.and_le_right
  unfold immU32 immS U32
  by_cases h : CPU.imm instr < 32768
  · simp only [if_pos h]
    have e1 : (CPU.imm instr : Int) % 4294967296 = (CPU.imm instr : Int) := by
      omega
    rw [e1]
    omega
  · simp only [if_neg h]
    have e1 : ((CPU.imm instr : Int) - 65536) % 4294967296
        = (CPU.imm instr : Int) + 4294901760 := by
      omega
    rw [e1]
    omega

/-- C1 (amended): a non-halted SW step writes `reg[rt]` into Backing Memory
at `(reg[rs] + sign_extend16(imm)) mod 256`, write-throughs the same pair
into the cache via `write`, advances PC by 1 mod 256, and leaves all other
memory entries, the kind tags, and the registers unchanged.  (The original
claim's "kind tag set to Data" is refuted: `CPU::step` never touches
`memory.kinds`.) -/
theorem sw_step (cpu : CPU) (mem : Memory) (cache : Cache)
    (hh : cpu.halted = false)
    (hop : CPU.opcode ((mem.data cpu.pc).getD 0) = 0x2B)
    (hwf : cache.wf = true) :
    ∃ cpu' mem' cache',
      CPU.step cpu mem cache = some (cpu', mem', cache') ∧
      cache.write (effAddr cpu ((mem.data cpu.pc).getD 0))
        (cpu.registers (CPU.rt ((mem.data cpu.pc).getD 0))) = some cache' ∧
      mem'.data (effAddr cpu ((mem.data cpu.pc).getD 0)) =
        some (cpu.registers (CPU.rt ((mem.data cpu.pc).getD 0))) ∧
      (∀ a, a ≠ effAddr cpu ((mem.data cpu.pc).getD 0) → mem'.data a = mem.data a) ∧
      mem'.kinds = mem.kinds ∧
      cpu'.pc = (cpu.pc + 1) % 256 ∧
      cpu'.registers = cpu.registers ∧
      cpu'.cycle = cpu.cycle + 1 := by
  set I := (mem.data cpu.pc).getD 0 with hI
  have haddr : (cpu.registers (CPU.rs I) + immU32 I) % U32 % 256 = effAddr cpu I :=
    code_addr_eq _ _
  obtain ⟨c1, hw⟩ := write_some_of_wf cache (effAddr cpu I)
    (cpu.registers (CPU.rt I)) hwf
  have hexec : CPU.exec cpu mem cache I =
      some ({ cpu with pc := (cpu.pc + 1) % 256 },
        mem.insertData (effAddr cpu I) (cpu.registers (CPU.rt I)), c1) := by
    simp only [CPU.exec, hop]
    norm_num
    rw [haddr, hw]
  have hstep : CPU.step cpu mem cache = some (finishStep
      ({ cpu with pc := (cpu.pc + 1) % 256 },
        mem.insertData (effAddr cpu I) (cpu.registers (CPU.rt I)), c1)) := by
    rw [step_eq cpu mem cache hh, ← hI, hexec, Option.map_some']
  refine ⟨_, _, _, hstep, ?_, ?_, ?_, ?_, ?_, ?_, ?_⟩
  · exact hw
  · simp [Memory.insertData]
  · intro a ha; simp [Memory.insertData, ha]
  · rfl
  · rfl
  · rfl
  · rfl

set_option maxRecDepth 8000 in
/-- C1 counterexample: executing `SW R2, 5(R1)` (all registers zero) writes
the data word at address 5 but leaves its kind tag absent, where the claim
requires it to be set to `Data`. -/
theorem sw_step_cex :
    ((CPU.step CPU.new (memWith instrSW) cacheW).map
      (fun t => (t.2.1.data 5, t.2.1.kinds 5))) = some (some 0, none) := by
  decide

set_option maxRecDepth 8000 in
/-- Witness for C1 at a concrete input. -/
theorem sw_step_witness :
    ∃ cpu' mem' cache',
      CPU.step CPU.new (memWith instrSW) cacheW = some (cpu', mem', cache') ∧
      mem'.data 5 = some 0 ∧ mem'.kinds = (memWith instrSW).kinds ∧ cpu'.pc = 1 := by
  obtain ⟨cpu', mem', cache', hstep, hcw, hdata, hother, hkinds, hpc, hregs, hcyc⟩ :=
    sw_step CPU.new (memWith instrSW) cacheW rfl (by decide) (by decide)
  have e1 : effAddr CPU.new (((memWith instrSW).data CPU.new.pc).getD 0) = 5 := by
    decide
  have e2 : CPU.new.registers
      (CPU.rt (((memWith instrSW).data CPU.new.pc).getD 0)) = 0 := by decide
  rw [e1, e2] at hdata
  exact ⟨cpu', mem', cache', hstep, hdata, hkinds, hpc.trans (by decide)⟩

/-- C8: a non-halted step whose fetched word (0 when the fetch address is
unmapped) has an opcode outside the supported set, or opcode 0 with an
unsupported funct, changes no register, no memory and no cache state, and
advances PC by 1 mod 256 — the step always succeeds. -/
theorem unsupported_step (cpu : CPU) (mem : Memory) (cache : Cache)
    (hh : cpu.halted = false)
    (hop : (CPU.opcode ((mem.data cpu.pc).getD 0) ≠ 0x00 ∧
            CPU.opcode ((mem.data cpu.pc).getD 0) ≠ 0x04 ∧
            CPU.opcode ((mem.data cpu.pc).getD 0) ≠ 0x08 ∧
            CPU.opcode ((mem.data cpu.pc).getD 0) ≠ 0x23 ∧
            CPU.opcode ((mem.data cpu.pc).getD 0) ≠ 0x2B) ∨
           (CPU.opcode ((mem.data cpu.pc).getD 0) = 0x00 ∧
            CPU.funct ((mem.data cpu.pc).getD 0) ≠ 0x20 ∧
            CPU.funct ((mem.data cpu.pc).getD 0) ≠ 0x22 ∧
            CPU.funct ((mem.data cpu.pc).getD 0) ≠ 0x2A)) :
    ∃ cpu', CPU.step cpu mem cache = some (cpu', mem, cache) ∧
      cpu'.registers = cpu.registers ∧
      cpu'.pc = (cpu.pc + 1) % 256 ∧
      cpu'.cycle = cpu.cycle + 1 := by
  set I := (mem.data cpu.pc).getD 0 with hI
  have hexec : CPU.exec cpu mem cache I =
      some ({ cpu with pc := (cpu.pc + 1) % 256 }, mem, cache) := by
    rcases hop with ⟨h0, h4, h8, h23, h2B⟩ | ⟨h0, h20, h22, h2A⟩
    · simp only [CPU.exec, h0, h4, h8, h23, h2B, if_false, ite_false]
    · simp only [CPU.exec, h0, h20, h22, h2A, if_false, ite_false, ite_true]
  have hstep : CPU.step cpu mem cache = some (finishStep
      ({ cpu with pc := (cpu.pc + 1) % 256 }, mem, cache)) := by
    rw [step_eq cpu mem cache hh, ← hI, hexec, Option.map_some']
  exact ⟨_, hstep, rfl, rfl, rfl⟩

set_option maxRecDepth 8000 in
/-- Witness for C8: the instruction word 0 (unmapped fetch from an empty
memory) decodes to opcode 0, funct 0, an unsupported R-type. -/
theorem unsupported_step_witness :
    ∃ cpu', CPU.step CPU.new Memory.new cacheW = some (cpu', Memory.new, cacheW) ∧
      cpu'.registers = CPU.new.registers ∧ cpu'.pc = 1 ∧ cpu'.cycle = 1 := by
  obtain ⟨cpu', hstep, hregs, hpc, hcyc⟩ :=
    unsupported_step CPU.new Memory.new cacheW rfl
      (Or.inr (by refine ⟨?_, ?_, ?_, ?_⟩ <;> decide))
  exact ⟨cpu', hstep, hregs, hpc.trans (by decide), hcyc⟩

/-- C4: a non-halted BEQ step leaves registers, memory and cache unchanged;
with equal operands and non-negative offset the new PC is
`(PC + 1 + off) mod 256` (unsigned wrapping); with equal operands and
negative offset it is `(PC as signed + 1 + off)` truncated to 8 bits; with
unequal operands it is `(PC + 1) mod 256` for either sign. -/
theorem beq_step (cpu : CPU) (mem : Memory) (cache : Cache)
    (hh : cpu.halted = false)
    (hop : CPU.opcode ((mem.data cpu.pc).getD 0) = 0x04) :
    ∃ cpu', CPU.step cpu mem cache = some (cpu', mem, cache) ∧
      cpu'.registers = cpu.registers ∧
      cpu'.cycle = cpu.cycle + 1 ∧
      (cpu.registers (CPU.rs ((mem.data cpu.pc).getD 0)) =
          cpu.registers (CPU.rt ((mem.data cpu.pc).getD 0)) →
        (0 ≤ immS ((mem.data cpu.pc).getD 0) →
          cpu'.pc = (cpu.pc + 1 + (immS ((mem.data cpu.pc).getD 0)).toNat) % 256) ∧
        (immS ((mem.data cpu.pc).getD 0) < 0 →
          cpu'.pc = (((cpu.pc : Int) + 1 + immS ((mem.data cpu.pc).getD 0)) % 256).toNat)) ∧
      (cpu.registers (CPU.rs ((mem.data cpu.pc).getD 0)) ≠
          cpu.registers (CPU.rt ((mem.data cpu.pc).getD 0)) →
        cpu'.pc = (cpu.pc + 1) % 256) := by
  set I := (mem.data cpu.pc).getD 0 with hI
  by_cases hneg : immS I < 0 <;>
    by_cases heq : cpu.registers (CPU.rs I) = cpu.registers (CPU.rt I)
  · have hexec : CPU.exec cpu mem cache I =
        some ({ cpu with pc := (((cpu.pc : Int) + 1 + immS I) % 256).toNat },
          mem, cache) := by
      simp only [CPU.exec, hop]
      norm_num
      rw [if_pos hneg, if_pos heq]
    have hstep : CPU.step cpu mem cache = some (finishStep
        ({ cpu with pc := (((cpu.pc : Int) + 1 + immS I) % 256).toNat },
          mem, cache)) := by
      rw [step_eq cpu mem cache hh, ← hI, hexec, Option.map_some']
    refine ⟨_, hstep, rfl, rfl, fun _ => ⟨fun hge => absurd hneg (by omega), fun _ => rfl⟩,
      fun hne => absurd heq hne⟩
  · have hexec : CPU.exec cpu mem cache I =
        some ({ cpu with pc := (cpu.pc + 1) % 256 }, mem, cache) := by
      simp only [CPU.exec, hop]
      norm_num
      rw [if_pos hneg, if_neg heq]
    have hstep : CPU.step cpu mem cache = some (finishStep
        ({ cpu with pc := (cpu.pc + 1) % 256 }, mem, cache)) := by
      rw [step_eq cpu mem cache hh, ← hI, hexec, Option.map_some']
    exact ⟨_, hstep, rfl, rfl, fun h => absurd h heq, fun _ => rfl⟩
  · have himm : CPU.imm I < 32768 := by
      by_contra hc
      have hb : CPU.imm I ≤ 65535 := Nat.and_le_right
      have : immS I < 0 := by
        simp only [immS, if_neg hc]
        omega
      exact hneg this
    have htn : (immS I).toNat = CPU.imm I := by
      simp [immS, himm]
    have hexec : CPU.exec cpu mem cache I =
        some ({ cpu with pc := ((cpu.pc + 1) % 256 + CPU.imm I % 256) % 256 },
          mem, cache) := by
      simp only [CPU.exec, hop]
      norm_num
      rw [if_neg hneg, if_pos heq]
    have hstep : CPU.step cpu mem cache = some (finishStep
        ({ cpu with pc := ((cpu.pc + 1) % 256 + CPU.imm I % 256) % 256 },
          mem, cache)) := by
      rw [step_eq cpu mem cache hh, ← hI, hexec, Option.map_some']
    refine ⟨_, hstep, rfl, rfl,
      fun _ => ⟨fun _ => ?_, fun hlt => absurd hlt hneg⟩,
      fun hne => absurd heq hne⟩
    show ((cpu.pc + 1) % 256 + CPU.imm I % 256) % 256
      = (cpu.pc + 1 + (immS I).toNat) % 256
    rw [htn]
    omega
  · have hexec : CPU.exec cpu mem cache I =
        some ({ cpu with pc := (cpu.pc + 1) % 256 }, mem, cache) := by
      simp only [CPU.exec, hop]
      norm_num
      rw [if_neg hneg, if_neg heq]
    have hstep : CPU.step cpu mem cache = some (finishStep
        ({ cpu with pc := (cpu.pc + 1) % 256 }, mem, cache)) := by
      rw [step_eq cpu mem cache hh, ← hI, hexec, Option.map_some']
    exact ⟨_, hstep, rfl, rfl, fun h => absurd h heq, fun _ => rfl⟩

set_option maxRecDepth 8000 in
/-- Witness for C4: `BEQ R0, R0, 3` at PC 0 with equal (zero) registers
branches to PC 4. -/
theorem beq_step_witness :
    ∃ cpu', CPU.step CPU.new (memWith instrBEQ) cacheW =
        some (cpu', memWith instrBEQ, cacheW) ∧
      cpu'.registers = CPU.new.registers ∧ cpu'.pc = 4 := by
  obtain ⟨cpu', hstep, hregs, hcyc, htaken, hnot⟩ :=
    beq_step CPU.new (memWith instrBEQ) cacheW rfl (by decide)
  obtain ⟨hpos, _⟩ := htaken (by decide)
  refine ⟨cpu', hstep, hregs, ?_⟩
  have := hpos (by decide)
  rw [this]
  decide

/-- C5: `step` is a no-op on a halted engine; a non-halted step increments
the cycle counter by exactly one and, after committing the instruction's
effects, is halted exactly when the (updated) Backing Memory has no entry at
the new PC. -/
theorem step_halt_cycle (cpu : CPU) (mem : Memory) (cache : Cache) :
    (cpu.halted = true → CPU.step cpu mem cache = some (cpu, mem, cache)) ∧
    (∀ cpu' mem' cache', cpu.halted = false →
      CPU.step cpu mem cache = some (cpu', mem', cache') →
      cpu'.cycle = cpu.cycle + 1 ∧
      (cpu'.halted = true ↔ mem'.data cpu'.pc = none)) := by
  constructor
  · intro h
    simp [CPU.step, h]
  · intro cpu' mem' cache' hh hstep
    rw [step_eq cpu mem cache hh] at hstep
    cases he : CPU.exec cpu mem cache ((mem.data cpu.pc).getD 0) with
    | none => rw [he] at hstep; simp at hstep
    | some t =>
      rw [he, Option.map_some'] at hstep
      injection hstep with hstep
      obtain ⟨hhalt, hcyc⟩ := exec_parts cpu mem cache _ t he
      have h1 : (finishStep t).1 = cpu' := congrArg (fun x => x.1) hstep
      have h2 : (finishStep t).2.1 = mem' := congrArg (fun x => x.2.1) hstep
      constructor
      · rw [← h1]
        show t.1.cycle + 1 = cpu.cycle + 1
        rw [hcyc]
      · rw [← h1, ← h2]
        exact finishStep_halted t (by rw [hhalt, hh])

set_option maxRecDepth 8000 in
/-- Witness for C5: the no-op half on a halted CPU, and the cycle/halt
behaviour of one concrete non-halted step. -/
theorem step_halt_cycle_witness :
    CPU.step cpuHalted (memWith instrBEQ) cacheW =
      some (cpuHalted, memWith instrBEQ, cacheW) ∧
    ∃ cpu' mem' cache',
      CPU.step CPU.new (memWith instrBEQ) cacheW = some (cpu', mem', cache') ∧
      cpu'.cycle = 1 ∧ (cpu'.halted = true ↔ mem'.data cpu'.pc = none) := by
  refine ⟨(step_halt_cycle cpuHalted (memWith instrBEQ) cacheW).1 rfl, ?_⟩
  have hsome : (CPU.step CPU.new (memWith instrBEQ) cacheW).isSome = true := by
    decide
  obtain ⟨⟨cpu', mem', cache'⟩, ht⟩ := Option.isSome_iff_exists.mp hsome
  obtain ⟨hcyc, hhal⟩ :=
    (step_halt_cycle CPU.new (memWith instrBEQ) cacheW).2 cpu' mem' cache' rfl ht
  exact ⟨cpu', mem', cache', ht, hcyc, hhal⟩

/-- C10: the domain of Backing Memory never shrinks across a step — every
address mapped before a successful `step` is still mapped afterwards (the
step only ever inserts entries, on LW-miss creation and SW). -/
theorem step_mem_domain (cpu : CPU) (mem : Memory) (cache : Cache)
    (cpu' : CPU) (mem' : Memory) (cache' : Cache)
    (hstep : CPU.step cpu mem cache = some (cpu', mem', cache')) :
    ∀ a v, mem.data a = some v → ∃ v', mem'.data a = some v' := by
  intro a v hv
  unfold CPU.step at hstep
  by_cases hh : cpu.halted
  · rw [if_pos hh] at hstep
    injection hstep with hstep
    have hm : mem = mem' := congrArg (fun x => x.2.1) hstep
    exact ⟨v, by rw [← hm]; exact hv⟩
  · rw [if_neg hh] at hstep
    cases he : CPU.exec cpu mem cache ((mem.data cpu.pc).getD 0) with
    | none => rw [he] at hstep; simp at hstep
    | some t =>
      rw [he, Option.map_some'] at hstep
      injection hstep with hstep
      have hm : (finishStep t).2.1 = mem' := congrArg (fun x => x.2.1) hstep
      obtain ⟨v', hv'⟩ := exec_mem_domain cpu mem cache _ t he a v hv
      exact ⟨v', by rw [← hm]; exact hv'⟩

set_option maxRecDepth 8000 in
/-- Witness for C10: after a concrete SW step, the program word loaded at
address 0 is still mapped. -/
theorem step_mem_domain_witness :
    ∃ cpu' mem' cache',
      CPU.step CPU.new (memWith instrSW) cacheW = some (cpu', mem', cache') ∧
      ∃ v', mem'.data 0 = some v' := by
  have hsome : (CPU.step CPU.new (memWith instrSW) cacheW).isSome = true := by
    decide
  obtain ⟨⟨cpu', mem', cache'⟩, ht⟩ := Option.isSome_iff_exists.mp hsome
  exact ⟨cpu', mem', cache', ht,
    step_mem_domain CPU.new (memWith instrSW) cacheW cpu' mem' cache' ht 0
      instrSW (by decide)⟩

/-- C2: a non-halted LW step queries the cache first at
`(reg[rs] + sign_extend16(imm)) mod 256`; on a hit `reg[rt]` receives the
cached data; on a miss with the address present in Backing Memory, `reg[rt]`
receives the stored value and the cache is filled via `write(addr, value)`;
on a miss with the address absent, Backing Memory gains a 0 entry, `reg[rt]`
becomes 0, and the cache is filled with 0; in all cases exactly one access
(hit or miss) is recorded and PC becomes PC+1 mod 256. -/
theorem lw_step (cpu : CPU) (mem : Memory) (cache : Cache)
    (hh : cpu.halted = false)
    (hop : CPU.opcode ((mem.data cpu.pc).getD 0) = 0x23)
    (hwf : cache.wf = true) :
    ∃ v hit c1,
      cache.read (effAddr cpu ((mem.data cpu.pc).getD 0)) = some ((v, hit), c1) ∧
    ∃ cpu' mem' cache',
      CPU.step cpu mem cache = some (cpu', mem', cache') ∧
      cpu'.pc = (cpu.pc + 1) % 256 ∧
      cpu'.cycle = cpu.cycle + 1 ∧
      ((hit = true ∧
         cpu'.registers = setReg cpu.registers (CPU.rt ((mem.data cpu.pc).getD 0)) v ∧
         mem' = mem ∧ cache' = c1) ∨
       (hit = false ∧ (∃ w, mem.data (effAddr cpu ((mem.data cpu.pc).getD 0)) = some w ∧
         cpu'.registers = setReg cpu.registers (CPU.rt ((mem.data cpu.pc).getD 0)) w ∧
         mem' = mem ∧
         c1.write (effAddr cpu ((mem.data cpu.pc).getD 0)) w = some cache')) ∨
       (hit = false ∧ mem.data (effAddr cpu ((mem.data cpu.pc).getD 0)) = none ∧
         cpu'.registers = setReg cpu.registers (CPU.rt ((mem.data cpu.pc).getD 0)) 0 ∧
         mem' = mem.insertData (effAddr cpu ((mem.data cpu.pc).getD 0)) 0 ∧
         c1.write (effAddr cpu ((mem.data cpu.pc).getD 0)) 0 = some cache')) ∧
      cache'.hits + cache'.misses = cache.hits + cache.misses + 1 ∧
      (hit = true → cache'.hits = cache.hits + 1 ∧ cache'.misses = cache.misses) ∧
      (hit = false → cache'.hits = cache.hits ∧ cache'.misses = cache.misses + 1) := by
  set I := (mem.data cpu.pc).getD 0 with hI
  have haddr : (cpu.registers (CPU.rs I) + immU32 I) % U32 % 256 = effAddr cpu I :=
    code_addr_eq _ _
  obtain ⟨hn, _, _⟩ := wf_spec cache hwf
  obtain ⟨v, hit, c1, hr, _, _, _, _, hcnt⟩ := read_elim cache (effAddr cpu I) hn
  have hwf1 : c1.wf = true := wf_read cache _ v hit c1 hwf hr
  refine ⟨v, hit, c1, hr, ?_⟩
  rcases hcnt with ⟨hhit, e1, e2⟩ | ⟨hhit, e1, e2⟩
  · -- cache hit
    subst hhit
    have hexec : CPU.exec cpu mem cache I =
        some ({ cpu with
          registers := setReg cpu.registers (CPU.rt I) v
          pc := (cpu.pc + 1) % 256 }, mem, c1) := by
      simp only [CPU.exec, hop]
      norm_num
      rw [haddr]
      simp [hr]
    have hstep : CPU.step cpu mem cache = some (finishStep
        ({ cpu with
          registers := setReg cpu.registers (CPU.rt I) v
          pc := (cpu.pc + 1) % 256 }, mem, c1)) := by
      rw [step_eq cpu mem cache hh, ← hI, hexec, Option.map_some']
    refine ⟨_, _, _, hstep, rfl, rfl, Or.inl ⟨rfl, rfl, rfl, rfl⟩, ?_, ?_, ?_⟩
    · show c1.hits + c1.misses = cache.hits + cache.misses + 1
      omega
    · intro _
      show c1.hits = cache.hits + 1 ∧ c1.misses = cache.misses
      exact ⟨e1, e2⟩
    · intro hc; simp at hc
  · -- cache miss
    subst hhit
    cases hmem : mem.data (effAddr cpu I) with
    | some w =>
      obtain ⟨c2, hw2⟩ := write_some_of_wf c1 (effAddr cpu I) w hwf1
      obtain ⟨f1, f2⟩ := write_counters c1 (effAddr cpu I) w c2 hw2
      have hexec : CPU.exec cpu mem cache I =
          some ({ cpu with
            registers := setReg cpu.registers (CPU.rt I) w
            pc := (cpu.pc + 1) % 256 }, mem, c2) := by
        simp only [CPU.exec, hop]
        norm_num
        rw [haddr]
        simp [hr, hmem, hw2]
      have hstep : CPU.step cpu mem cache = some (finishStep
          ({ cpu with
            registers := setReg cpu.registers (CPU.rt I) w
            pc := (cpu.pc + 1) % 256 }, mem, c2)) := by
        rw [step_eq cpu mem cache hh, ← hI, hexec, Option.map_some']
      refine ⟨_, _, _, hstep, rfl, rfl,
        Or.inr (Or.inl ⟨rfl, w, rfl, rfl, rfl, hw2⟩), ?_, ?_, ?_⟩
      · show c2.hits + c2.misses = cache.hits + cache.misses + 1
        omega
      · intro hc; simp at hc
      · intro _
        show c2.hits = cache.hits ∧ c2.misses = cache.misses + 1
        exact ⟨by omega, by omega⟩
    | none =>
      obtain ⟨c2, hw2⟩ := write_some_of_wf c1 (effAddr cpu I) 0 hwf1
      obtain ⟨f1, f2⟩ := write_counters c1 (effAddr cpu I) 0 c2 hw2
      have hexec : CPU.exec cpu mem cache I =
          some ({ cpu with
            registers := setReg cpu.registers (CPU.rt I) 0
            pc := (cpu.pc + 1) % 256 },
            mem.insertData (effAddr cpu I) 0, c2) := by
        simp only [CPU.exec, hop]
        norm_num
        rw [haddr]
        simp [hr, hmem, hw2]
      have hstep : CPU.step cpu mem cache = some (finishStep
          ({ cpu with
            registers := setReg cpu.registers (CPU.rt I) 0
            pc := (cpu.pc + 1) % 256 },
            mem.insertData (effAddr cpu I) 0, c2)) := by
        rw [step_eq cpu mem cache hh, ← hI, hexec, Option.map_some']
      refine ⟨_, _, _, hstep, rfl, rfl,
        Or.inr (Or.inr ⟨rfl, rfl, rfl, rfl, hw2⟩), ?_, ?_, ?_⟩
      · show c2.hits + c2.misses = cache.hits + cache.misses + 1
        omega
      · intro hc; simp at hc
      · intro _
        show c2.hits = cache.hits ∧ c2.misses = cache.misses + 1
        exact ⟨by omega, by omega⟩

set_option maxRecDepth 8000 in
/-- Witness for C2: `LW R2, 7(R1)` from a fresh state misses on the
never-written address 7 and records exactly one access. -/
theorem lw_step_witness :
    ∃ v hit c1,
      cacheW.read (effAddr CPU.new (((memWith instrLW).data CPU.new.pc).getD 0)) =
        some ((v, hit), c1) ∧
    ∃ cpu' mem' cache',
      CPU.step CPU.new (memWith instrLW) cacheW = some (cpu', mem', cache') ∧
      cpu'.pc = 1 ∧ cache'.hits + cache'.misses = 1 := by
  obtain ⟨v, hit, c1, hr, cpu', mem', cache', hstep, hpc, hcyc, hcase, hsum, hhi, hmi⟩ :=
    lw_step CPU.new (memWith instrLW) cacheW rfl (by decide) (by decide)
  exact ⟨v, hit, c1, hr, cpu', mem', cache', hstep, hpc.trans (by decide),
    hsum.trans (by decide)⟩

end CPUSim
